import Mathlib

/-!
Shallow embedding of the batch-translation pipeline of
`scripts/translate_qa_parallel.py` and `scripts/translate_qa_resume.py`.

Conventions of the embedding:
* The Python translation cache (a `dict[str, str]`, insertion ordered, with
  `set` overwriting in place) is an association list `Cache`.
* The remote API is an environment: for each retry attempt the environment
  yields either a network/structure error (`Attempt.err`) or a parsed
  response body, a function from the request (the list of un-cached texts
  sent) to the parsed JSON content (`JVal`).  `JVal.arr` is a parsed JSON
  array of strings, `JVal.other` any other parsed value.
* `asyncio.sleep` delays are accumulated as natural-number seconds.
* `asyncio.gather` over one task per batch is modelled by `runOrder`: the
  tasks complete in an arbitrary order `ord`, each writes its result into
  the slot of its own batch index, and the slots are read back in index
  order - exactly the index-addressed result placement of the scripts.
-/

/-- Cache contents: insertion-ordered association list, one entry per key
(`TranslationCache.cache`, a Python dict from source text to translation). -/
abbrev Cache := List (String × String)

/-- `TranslationCache.get` (translate_qa_parallel.py lines 59-61):
`self.cache.get(text)`, i.e. `none` when the key is absent. -/
def cacheGet (c : Cache) (t : String) : Option String :=
  (c.find? (fun p => p.1 == t)).map Prod.snd

/-- `TranslationCache.set` (lines 63-65): `self.cache[text] = translation` -
overwrite in place if the key exists, else append a new entry. -/
def cacheSet (c : Cache) (t v : String) : Cache :=
  if c.any (fun p => p.1 == t) then
    c.map (fun p => if p.1 == t then (p.1, v) else p)
  else c ++ [(t, v)]

/-- Python truthiness of `cached = cache.get(text)` in `if cached:`
(line 116): truthy exactly when present and non-empty. -/
def cacheHit (c : Cache) (t : String) : Bool :=
  match cacheGet c t with
  | some v => v != ""
  | none => false

/-- Parsed JSON content of an API response: a JSON array of strings, or
anything else (object, number, string, ...). -/
inductive JVal where
  | arr : List String → JVal
  | other : JVal
deriving DecidableEq

/-- One API attempt as seen by the retry loop: a raised error (timeout,
non-2xx status, missing `choices`, unparseable JSON), or a response whose
parsed content is a function of the request that was sent. -/
inductive Attempt where
  | err : Attempt
  | resp : (List String → JVal) → Attempt

/-- Validation of one attempt (lines 164-198): an attempt yields accepted
translations exactly when it is a response whose parsed content is a list
of the same length as the request; everything else raises and is caught by
the retry handler. -/
def parseAccept (a : Attempt) (req : List String) : Option (List String) :=
  match a with
  | Attempt.err => none
  | Attempt.resp f =>
    match f req with
    | JVal.arr l => if l.length = req.length then some l else none
    | JVal.other => none

/-- `max_retries = 3` (line 161). -/
def max_retries : ℕ := 3

/-- The retry loop `for attempt in range(max_retries)` (lines 162-220).
`retryLoop env req i n` runs attempts `i, i+1, ...` with `n` attempts left;
it returns (accepted translations or `none` after exhausting retries,
total seconds slept in backoff `2 ** attempt`, number of attempts made). -/
def retryLoop (env : ℕ → Attempt) (req : List String) : ℕ → ℕ → Option (List String) × ℕ × ℕ
  | _, 0 => (none, 0, 0)
  | i, 1 =>
    match parseAccept (env i) req with
    | some l => (some l, 0, 1)
    | none => (none, 0, 1)
  | i, n + 2 =>
    match parseAccept (env i) req with
    | some l => (some l, 0, 1)
    | none =>
      let r := retryLoop env req (i + 1) (n + 1)
      (r.1, 2 ^ i + r.2.1, 1 + r.2.2)

/-- The `translations` list after the cache scan (lines 110-121): slot `i`
holds the cached translation when truthy-cached, else a `None` placeholder. -/
def cachedSlots (c : Cache) (texts : List String) : List (Option String) :=
  texts.map (fun t => if cacheHit c t then some ((cacheGet c t).getD "") else none)

/-- `texts_to_translate` (lines 111-120): the texts without a truthy cache
hit, in input order. -/
def texts_to_translate (c : Cache) (texts : List String) : List String :=
  texts.filter (fun t => !cacheHit c t)

/-- `text_indices` (lines 112-121): the positions of the un-cached texts. -/
def text_indices (c : Cache) (texts : List String) : List ℕ :=
  (List.range texts.length).filter (fun i => !cacheHit c (texts.getD i ""))

/-- Result of one `translate_batch_async` call: the returned list, the cache
afterwards, the seconds slept in backoff, the number of API calls made, and
whether the rate limiter / the semaphore were acquired. -/
structure BatchRun where
  out : List String
  cache : Cache
  sleep : ℕ
  calls : ℕ
  limiter : Bool
  sem : Bool
deriving DecidableEq

/-- `translate_batch_async` (translate_qa_parallel.py lines 100-220, same
code in translate_qa_resume.py lines 161-268).  Cache scan; early return
when everything is truthy-cached (before `rate_limiter.acquire()` and the
semaphore); otherwise the retry loop, merging an accepted response into the
placeholder slots and the cache (lines 200-205), or - after the final
failure - writing each un-cached item's own source text into its slot
without touching the cache (lines 218-220). -/
def translate_batch_async (env : ℕ → Attempt) (c : Cache) (texts : List String) : BatchRun :=
  let slots := cachedSlots c texts
  let toTr := texts_to_translate c texts
  let idxs := text_indices c texts
  if toTr.isEmpty then
    ⟨slots.map (fun o => o.getD ""), c, 0, 0, false, false⟩
  else
    let r := retryLoop env toTr 0 max_retries
    match r.1 with
    | some l =>
      let merged := (idxs.zip l).foldl
        (fun st p => (st.1.set p.1 (some p.2), cacheSet st.2 (texts.getD p.1 "") p.2)) (slots, c)
      ⟨merged.1.map (fun o => o.getD ""), merged.2, r.2.1, r.2.2, true, true⟩
    | none =>
      ⟨(idxs.foldl (fun sl i => sl.set i (some (texts.getD i ""))) slots).map (fun o => o.getD ""),
        c, r.2.1, r.2.2, true, true⟩

/-- Fuel-indexed worker for `chunkList`; the fuel is an upper bound on the
list length, so the recursion is structural. -/
def chunkFuel (b : ℕ) : ℕ → List α → List (List α)
  | 0, _ => []
  | _, [] => []
  | fuel + 1, t :: ts => (t :: ts.take (b - 1)) :: chunkFuel b fuel (ts.drop (b - 1))

/-- `batches = [texts[i:i + BATCH_SIZE] for i in range(0, len(texts), BATCH_SIZE)]`
(line 231), for batch size `b ≥ 1`. -/
def chunkList (b : ℕ) (l : List α) : List (List α) :=
  chunkFuel b l.length l

/-- `asyncio.gather` over one `translate_batch_async` task per batch
(lines 240-264): the tasks finish in an arbitrary completion order `ord`,
each writing its result into the slot of its own batch index while the
shared cache is threaded through in completion order. -/
def runOrder (env : ℕ → ℕ → Attempt) (batches : List (List String)) :
    List ℕ → List (Option (List String)) → Cache → List (Option (List String)) × Cache
  | [], slots, c => (slots, c)
  | k :: ks, slots, c =>
    let r := translate_batch_async (env k) c (batches.getD k [])
    runOrder env batches ks (slots.set k (some r.out)) r.cache

/-- `translate_all_batches` (lines 223-273): split into batches, run one
task per batch, and flatten the per-batch results in batch-index order. -/
def translate_all_batches (b : ℕ) (env : ℕ → ℕ → Attempt) (ord : List ℕ)
    (texts : List String) (c : Cache) : List String × Cache :=
  let batches := chunkList b texts
  let r := runOrder env batches ord (List.replicate batches.length none) c
  (((r.1.map (fun o => o.getD [])).flatten), r.2)

/-- One QA record.  `question_pt`/`answer_pt` are the source fields (read
with direct indexing by the orchestrators), the `_en` fields and `context`
are read with `.get(...)`, hence optional; `rest` stands for the remaining
keys of the dict (`id`, `date`, ...), which the pipeline never touches. -/
structure QA where
  question_pt : String
  answer_pt : String
  question_en : Option String
  answer_en : Option String
  context : Option String
  context_en : Option String
  rest : String
deriving DecidableEq

instance : Inhabited QA := ⟨⟨"", "", none, none, none, none, ""⟩⟩

/-- `needs_translation` (translate_qa_resume.py lines 78-98). -/
def needs_translation (qa : QA) : Bool :=
  let q_pt := qa.question_pt
  let q_en := qa.question_en.getD ""
  let a_pt := qa.answer_pt
  let a_en := qa.answer_en.getD ""
  if q_en = "" ∨ a_en = "" then true
  else if q_en = q_pt ∨ a_en = a_pt then true
  else if q_en.length < 3 ∨ a_en.length < 3 then true
  else false

/-- The `context` source value sent to the translator
(`qa.get('context', '') if qa.get('context', '') else "N/A"`, line 288). -/
def ctxSrc (qa : QA) : String :=
  if qa.context.getD "" ≠ "" then qa.context.getD "" else "N/A"

/-- The final merge of `translate_qa_pairs` (lines 308-311): write each
translated value back into the item at its own index. -/
def mergeAll (qas : List QA) (tq ta tc : List String) : List QA :=
  (List.range qas.length).map (fun idx =>
    let qa := qas.getD idx default
    { qa with
      question_en := some (tq.getD idx "")
      answer_en := some (ta.getD idx "")
      context_en := some (if qa.context.getD "" ≠ "" then tc.getD idx "" else "") })

/-- `translate_qa_pairs` (translate_qa_parallel.py lines 276-313): translate
the question, answer and context columns through `translate_all_batches`
(each column's batch tasks may complete in any order `ordQ`/`ordA`/`ordC`),
then merge the three translated columns back per item by index. -/
def translate_qa_pairs (b : ℕ) (envQ envA envC : ℕ → ℕ → Attempt)
    (ordQ ordA ordC : List ℕ) (qas : List QA) (c : Cache) : List QA × Cache :=
  let questions := qas.map QA.question_pt
  let answers := qas.map QA.answer_pt
  let contexts := qas.map ctxSrc
  let q := translate_all_batches b envQ ordQ questions c
  let a := translate_all_batches b envA ordA answers q.2
  let ct := translate_all_batches b envC ordC contexts a.2
  (mergeAll qas q.1 a.1 ct.1, ct.2)

/-- The flagging loop of `translate_missing_only` (translate_qa_resume.py
lines 278-284): `flaggedAux i qas = (pairs_to_translate, pair_indices)`
where the enumeration starts at index `i`. -/
def flaggedAux : ℕ → List QA → List QA × List ℕ
  | _, [] => ([], [])
  | i, qa :: rest =>
    let r := flaggedAux (i + 1) rest
    if needs_translation qa then (qa :: r.1, i :: r.2) else r

/-- `asyncio.gather` over the batches of one column in
`translate_missing_only` (lines 313-315): batch `k` out of the list,
results concatenated in batch order, cache threaded through. -/
def runBatchesSeq (env : ℕ → ℕ → Attempt) : ℕ → Cache → List (List String) → List String × Cache
  | _, c, [] => ([], c)
  | k, c, bt :: rest =>
    let r := translate_batch_async (env k) c bt
    let r2 := runBatchesSeq env (k + 1) r.cache rest
    (r.out ++ r2.1, r2.2)

/-- One iteration of the write-back loop of `translate_missing_only`
(lines 334-336): set the three `_en` fields of one item from position `i`
of the translated columns, `context_en` emptied when
`pairs_to_translate[i]`'s context is falsy. -/
def enUpdate (tq ta tc : List String) (fl : List QA) (i : ℕ) (qa : QA) : QA :=
  { qa with
    question_en := some (tq.getD i "")
    answer_en := some (ta.getD i "")
    context_en := some (if (fl.getD i default).context.getD "" ≠ "" then tc.getD i "" else "") }

/-- The write-back loop of `translate_missing_only` (lines 333-336):
`for i, idx in enumerate(pair_indices)` updates `qa_pairs[idx]` from
position `i` of the translated columns. -/
def writeBack (tq ta tc : List String) (fl : List QA) : ℕ → List ℕ → List QA → List QA
  | _, [], acc => acc
  | i, idx :: restIdx, acc =>
    writeBack tq ta tc fl (i + 1) restIdx
      (acc.set idx (enUpdate tq ta tc fl i (acc.getD idx default)))

/-- `translate_missing_only` (translate_qa_resume.py lines 271-338): flag
the items needing translation, return everything unchanged when none is
flagged, otherwise translate the three columns of the flagged items in
batches and write the results back at the flagged indices only. -/
def translate_missing_only (b : ℕ) (envQ envA envC : ℕ → ℕ → Attempt)
    (qas : List QA) (c : Cache) : List QA × Cache :=
  let fl := flaggedAux 0 qas
  if fl.1.isEmpty then (qas, c)
  else
    let questions := fl.1.map QA.question_pt
    let answers := fl.1.map QA.answer_pt
    let contexts := fl.1.map (fun qa => if qa.context.getD "" ≠ "" then qa.context.getD "" else "N/A")
    let q := runBatchesSeq envQ 0 c (chunkList b questions)
    let a := runBatchesSeq envA 0 q.2 (chunkList b answers)
    let ct := runBatchesSeq envC 0 a.2 (chunkList b contexts)
    (writeBack q.1 a.1 ct.1 fl.1 0 fl.2 qas, ct.2)

/-- The refill step of `RateLimiter.acquire` (lines 85-89):
`tokens = min(requests_per_minute, tokens + elapsed * (requests_per_minute / 60.0))`.
Arithmetic over ℚ stands for the Python floats. -/
def refill (cap tok e : ℚ) : ℚ :=
  min cap (tok + e * (cap / 60))

/-- The `while True` loop of `RateLimiter.acquire` (lines 77-97): each
iteration refills with the elapsed time since the previous iteration, then
either takes a token (`tokens >= 1`) or sleeps and loops.  `es` is the
sequence of elapsed times observed at each iteration; `none` means the
call is still waiting when `es` runs out. -/
def acquire (cap : ℚ) : List ℚ → ℚ → Option ℚ
  | [], _ => none
  | e :: es, tok =>
    let t := refill cap tok e
    if 1 ≤ t then some (t - 1) else acquire cap es t

/-- A sequence of `acquire` calls against the shared limiter state, each
with its own elapsed-time trace. -/
def acquireSeq (cap : ℚ) : List (List ℚ) → ℚ → Option ℚ
  | [], tok => some tok
  | es :: rest, tok =>
    match acquire cap es tok with
    | some t' => acquireSeq cap rest t'
    | none => none

/-- A cache is coherent with a translation oracle `tr` when every truthy
entry stores the oracle's translation of its key. -/
def Coherent (tr : String → String) (c : Cache) : Prop :=
  ∀ p ∈ c, p.2 ≠ "" → p.2 = tr p.1

/-- A per-batch API environment is `tr`-faithful when every attempt either
fails outright or answers any request with the oracle translations of the
request, in request order. -/
def GoodEnvB (env : ℕ → Attempt) (tr : String → String) : Prop :=
  ∀ i, env i = Attempt.err ∨ env i = Attempt.resp (fun req => JVal.arr (req.map tr))

/-- `tr`-faithfulness of the per-batch environments of a whole run. -/
def GoodEnv (env : ℕ → ℕ → Attempt) (tr : String → String) : Prop :=
  ∀ k, GoodEnvB (env k) tr

/-- Pointwise relation between an output column and its source column:
same length, and every slot holds the oracle translation of its own source
text or that source text unchanged. -/
def PtwiseTr (tr : String → String) (out src : List String) : Prop :=
  out.length = src.length ∧
    ∀ i, i < src.length → out.getD i "" = tr (src.getD i "") ∨ out.getD i "" = src.getD i ""

/-- Concrete translation oracle used to instantiate the theorems below on
closed inputs. -/
def trWit : String → String := fun t => String.append "EN:" t

/-- A well-behaved API attempt: answers any request with the oracle
translations, in request order. -/
def respOk : Attempt := Attempt.resp (fun req => JVal.arr (req.map trWit))

/-- Environment whose every attempt of every batch succeeds. -/
def envOkW : ℕ → ℕ → Attempt := fun _ _ => respOk

/-- Per-batch environment whose every attempt fails. -/
def envFailB : ℕ → Attempt := fun _ => Attempt.err

/-- Per-batch environment failing on attempt 0 and succeeding afterwards. -/
def envK1 : ℕ → Attempt := fun i => if i = 0 then Attempt.err else respOk

/-- A QA record with no translations yet. -/
def qaWit : QA := ⟨"pergunta", "resposta", none, none, some "ctx", none, "rest"⟩

/-- A QA record whose translations are already present and valid. -/
def qaDone : QA := ⟨"pergunta", "resposta", some "question", some "answer", none, none, "keep"⟩

/-! ### List utilities -/

lemma getD_map_of_lt (f : α → β) (l : List α) (i : ℕ) (d : β) (d' : α) (h : i < l.length) :
    (l.map f).getD i d = f (l.getD i d') := by
  rw [List.getD_eq_getElem _ _ (by simpa using h), List.getD_eq_getElem _ _ h, List.getElem_map]

lemma eq_of_getD_eq (d : α) (l₁ l₂ : List α) (hlen : l₁.length = l₂.length)
    (h : ∀ i, i < l₁.length → l₁.getD i d = l₂.getD i d) : l₁ = l₂ := by
  refine List.ext_getElem hlen (fun n h₁ h₂ => ?_)
  have := h n h₁
  rwa [List.getD_eq_getElem _ _ h₁, List.getD_eq_getElem _ _ h₂] at this

lemma getD_set_ne (l : List α) (i j : ℕ) (a d : α) (hne : i ≠ j) :
    (l.set i a).getD j d = l.getD j d := by
  rw [List.getD_eq_getElem?_getD, List.getD_eq_getElem?_getD, List.getElem?_set_ne hne]

lemma getD_set_self (l : List α) (i : ℕ) (a d : α) (h : i < l.length) :
    (l.set i a).getD i d = a := by
  rw [List.getD_eq_getElem?_getD, List.getElem?_set_self h]; rfl

lemma getD_append_left (l₁ l₂ : List α) (i : ℕ) (d : α) (h : i < l₁.length) :
    (l₁ ++ l₂).getD i d = l₁.getD i d := by
  induction l₁ generalizing i with
  | nil => simp at h
  | cons x xs ih =>
    cases i with
    | zero => rfl
    | succ n => simpa using ih n (by simpa using h)

lemma getD_append_right (l₁ l₂ : List α) (j : ℕ) (d : α) :
    (l₁ ++ l₂).getD (l₁.length + j) d = l₂.getD j d := by
  induction l₁ with
  | nil => simp
  | cons x xs ih => simpa [Nat.succ_add] using ih

lemma foldl_prod_split (f : α → γ → α) (g : β → γ → β) (l : List γ) (a : α) (b : β) :
    l.foldl (fun st x => (f st.1 x, g st.2 x)) (a, b) = (l.foldl f a, l.foldl g b) := by
  induction l generalizing a b with
  | nil => rfl
  | cons x xs ih => simpa using ih (f a x) (g b x)

lemma foldl_set_length (g : ℕ → String) (idxs : List ℕ) (sl : List (Option String)) :
    (idxs.foldl (fun s i => s.set i (some (g i))) sl).length = sl.length := by
  induction idxs generalizing sl with
  | nil => rfl
  | cons i rest ih => simpa [List.length_set] using ih (sl.set i (some (g i)))

lemma foldl_set_getD_not_mem (g : ℕ → String) (idxs : List ℕ) (sl : List (Option String))
    (j : ℕ) (h : j ∉ idxs) :
    (idxs.foldl (fun s i => s.set i (some (g i))) sl).getD j none = sl.getD j none := by
  induction idxs generalizing sl with
  | nil => rfl
  | cons i rest ih =>
    have hji : i ≠ j := fun e => h (by simp [e])
    have hrest : j ∉ rest := fun e => h (List.mem_cons_of_mem _ e)
    rw [List.foldl_cons, ih (sl.set i (some (g i))) hrest, getD_set_ne sl i j _ none hji]

lemma foldl_set_getD_mem (g : ℕ → String) (idxs : List ℕ) (sl : List (Option String))
    (j : ℕ) (hj : j ∈ idxs) (hlen : j < sl.length) :
    (idxs.foldl (fun s i => s.set i (some (g i))) sl).getD j none = some (g j) := by
  induction idxs generalizing sl with
  | nil => simp at hj
  | cons i rest ih =>
    by_cases hr : j ∈ rest
    · simpa using ih (sl.set i (some (g i))) hr (by simpa [List.length_set] using hlen)
    · have hij : i = j := by
        rcases List.mem_cons.mp hj with h | h
        · exact h.symm
        · exact absurd h hr
      subst hij
      rw [List.foldl_cons, foldl_set_getD_not_mem g rest _ i hr, getD_set_self sl i _ none hlen]

/-! ### Chunking -/

lemma chunkFuel_fuel_irrel (b : ℕ) : ∀ (n m : ℕ) (l : List α), l.length ≤ n → l.length ≤ m →
    chunkFuel b n l = chunkFuel b m l := by
  intro n
  induction n with
  | zero =>
    intro m l hn _
    have : l = [] := List.length_eq_zero.mp (Nat.le_zero.mp hn)
    subst this
    cases m <;> rfl
  | succ n ih =>
    intro m l hn hm
    cases l with
    | nil => cases m <;> rfl
    | cons t ts =>
      have hts : ts.length + 1 ≤ m := by simpa using hm
      obtain ⟨m', rfl⟩ : ∃ m', m = m' + 1 := ⟨m - 1, by omega⟩
      have htsn : ts.length ≤ n := by simpa using hn
      have hdl : (ts.drop (b - 1)).length ≤ ts.length := by
        simp only [List.length_drop]; omega
      show (t :: ts.take (b - 1)) :: chunkFuel b n (ts.drop (b - 1)) =
        (t :: ts.take (b - 1)) :: chunkFuel b m' (ts.drop (b - 1))
      rw [ih m' (ts.drop (b - 1)) (le_trans hdl htsn) (le_trans hdl (by omega))]

lemma chunkList_nil (b : ℕ) : chunkList b ([] : List α) = [] := rfl

lemma chunkList_cons (b : ℕ) (t : α) (ts : List α) :
    chunkList b (t :: ts) = (t :: ts.take (b - 1)) :: chunkList b (ts.drop (b - 1)) := by
  show chunkFuel b (ts.length + 1) (t :: ts) = _
  show (t :: ts.take (b - 1)) :: chunkFuel b ts.length (ts.drop (b - 1)) = _
  rw [chunkFuel_fuel_irrel b ts.length (ts.drop (b - 1)).length (ts.drop (b - 1))
    (by simp only [List.length_drop]; omega) le_rfl]
  rfl

lemma chunkList_flatten (b : ℕ) : ∀ (l : List α), (chunkList b l).flatten = l := by
  have key : ∀ (n : ℕ) (l : List α), l.length ≤ n → (chunkList b l).flatten = l := by
    intro n
    induction n with
    | zero =>
      intro l hl
      have : l = [] := List.length_eq_zero.mp (Nat.le_zero.mp hl)
      subst this; rfl
    | succ n ih =>
      intro l hl
      cases l with
      | nil => rfl
      | cons t ts =>
        rw [chunkList_cons]
        have hts : ts.length ≤ n := by simpa using hl
        have : (chunkList b (ts.drop (b - 1))).flatten = ts.drop (b - 1) :=
          ih _ (by simp only [List.length_drop]; omega)
        simp only [List.flatten_cons, this, List.cons_append, List.take_append_drop]
  exact fun l => key l.length l le_rfl

/-! ### Cache lemmas -/

lemma cacheGet_mem (c : Cache) (t v : String) (h : cacheGet c t = some v) : (t, v) ∈ c := by
  unfold cacheGet at h
  rcases Option.map_eq_some'.mp h with ⟨p, hp, hv⟩
  have hmem := List.mem_of_find?_eq_some hp
  have hpred := List.find?_some hp
  have h1 : p.1 = t := by simpa using hpred
  have : (t, v) = p := by
    cases p
    simp only at h1 hv
    simp [h1, hv]
  rwa [this]

lemma mem_cacheSet (c : Cache) (k v : String) (p : String × String) (h : p ∈ cacheSet c k v) :
    p ∈ c ∨ (p.1 = k ∧ p.2 = v) := by
  unfold cacheSet at h
  split at h
  · rcases List.mem_map.mp h with ⟨q, hq, he⟩
    by_cases hqk : q.1 = k
    · right
      rw [if_pos (by simpa using hqk)] at he
      rw [← he]
      exact ⟨hqk, rfl⟩
    · left
      rw [if_neg (by simpa using hqk)] at he
      rwa [← he]
  · rcases List.mem_append.mp h with h | h
    · exact Or.inl h
    · right
      have : p = (k, v) := by simpa using h
      rw [this]
      exact ⟨rfl, rfl⟩

lemma coherent_cacheSet (tr : String → String) (c : Cache) (k : String)
    (hc : Coherent tr c) : Coherent tr (cacheSet c k (tr k)) := by
  intro p hp hne
  rcases mem_cacheSet c k (tr k) p hp with h | ⟨h1, h2⟩
  · exact hc p h hne
  · rw [h2, h1]

lemma coherent_foldl_cacheSet (tr : String → String) (key gfn : ℕ → String) :
    ∀ (idxs : List ℕ) (c : Cache), (∀ i ∈ idxs, gfn i = tr (key i)) → Coherent tr c →
    Coherent tr (idxs.foldl (fun st i => cacheSet st (key i) (gfn i)) c) := by
  intro idxs
  induction idxs with
  | nil => exact fun c _ hc => hc
  | cons i rest ih =>
    intro c hg hc
    simp only [List.foldl_cons]
    refine ih _ (fun j hj => hg j (List.mem_cons_of_mem _ hj)) ?_
    rw [hg i (List.mem_cons_self _ _)]
    exact coherent_cacheSet tr c (key i) hc

lemma cacheHit_exists (c : Cache) (t : String) (h : cacheHit c t = true) :
    ∃ v, cacheGet c t = some v ∧ v ≠ "" := by
  unfold cacheHit at h
  cases hg : cacheGet c t with
  | none => rw [hg] at h; simp at h
  | some v =>
    rw [hg] at h
    exact ⟨v, rfl, by simpa using h⟩

lemma coherent_hit_val (tr : String → String) (c : Cache) (t : String)
    (hc : Coherent tr c) (hh : cacheHit c t = true) : (cacheGet c t).getD "" = tr t := by
  rcases cacheHit_exists c t hh with ⟨v, hv, hne⟩
  rw [hv]
  simpa using hc (t, v) (cacheGet_mem c t v hv) hne

/-! ### Cache-scan characterizations -/

lemma cachedSlots_length (c : Cache) (texts : List String) :
    (cachedSlots c texts).length = texts.length := by
  simp [cachedSlots]

lemma cachedSlots_getD (c : Cache) (texts : List String) (i : ℕ) (h : i < texts.length) :
    (cachedSlots c texts).getD i none =
      if cacheHit c (texts.getD i "") then some ((cacheGet c (texts.getD i "")).getD "") else none := by
  unfold cachedSlots
  rw [getD_map_of_lt _ _ i none "" h]

lemma mem_text_indices (c : Cache) (texts : List String) (i : ℕ) :
    i ∈ text_indices c texts ↔ i < texts.length ∧ cacheHit c (texts.getD i "") = false := by
  simp [text_indices, List.mem_filter, List.mem_range]

lemma texts_to_translate_nil_iff (c : Cache) (texts : List String) :
    texts_to_translate c texts = [] ↔ ∀ t ∈ texts, cacheHit c t = true := by
  simp [texts_to_translate, List.filter_eq_nil_iff]

lemma filter_range_map_getD (p : String → Bool) : ∀ (texts : List String),
    ((List.range texts.length).filter (fun i => p (texts.getD i ""))).map
      (fun i => texts.getD i "") = texts.filter p := by
  intro texts
  induction texts with
  | nil => rfl
  | cons t ts ih =>
    simp only [List.length_cons, List.range_succ_eq_map, List.filter_cons, List.getD_cons_zero]
    have hcomp : ((List.range ts.length).map Nat.succ).filter
        (fun i => p ((t :: ts).getD i "")) =
        ((List.range ts.length).filter (fun i => p (ts.getD i ""))).map Nat.succ := by
      rw [List.filter_map]
      congr 1
    have hfun : ((fun i => (t :: ts).getD i "") ∘ Nat.succ) = (fun i => ts.getD i "") := by
      funext i
      simp [Function.comp]
    by_cases hp : p t
    · simp only [hp, if_true, hcomp, List.map_cons, List.getD_cons_zero, List.map_map, hfun, ih]
    · simp only [hp, Bool.false_eq_true, if_false, hcomp, List.map_map, hfun, ih]

lemma text_indices_map_getD (c : Cache) (texts : List String) :
    (text_indices c texts).map (fun i => texts.getD i "") = texts_to_translate c texts :=
  filter_range_map_getD (fun s => !cacheHit c s) texts

/-! ### Retry-loop lemmas -/

lemma parseAccept_some_iff (a : Attempt) (req l : List String) :
    parseAccept a req = some l ↔
      ∃ f, a = Attempt.resp f ∧ f req = JVal.arr l ∧ l.length = req.length := by
  constructor
  · intro h
    cases a with
    | err => simp [parseAccept] at h
    | resp f =>
      cases hfr : f req with
      | other => simp [parseAccept, hfr] at h
      | arr l' =>
        by_cases hl : l'.length = req.length
        · have : l' = l := by simpa [parseAccept, hfr, hl] using h
          subst this
          exact ⟨f, rfl, hfr, hl⟩
        · simp [parseAccept, hfr, hl] at h
  · rintro ⟨f, rfl, hfr, hlen⟩
    simp [parseAccept, hfr, hlen]

lemma parseAccept_good (tr : String → String) (req : List String) :
    parseAccept (Attempt.resp (fun r => JVal.arr (r.map tr))) req = some (req.map tr) := by
  simp [parseAccept]

lemma retryLoop_zero (env : ℕ → Attempt) (req : List String) (i : ℕ) :
    retryLoop env req i 0 = (none, 0, 0) := rfl

lemma retryLoop_one_acc (env : ℕ → Attempt) (req l : List String) (i : ℕ)
    (h : parseAccept (env i) req = some l) : retryLoop env req i 1 = (some l, 0, 1) := by
  unfold retryLoop
  rw [h]

lemma retryLoop_one_fail (env : ℕ → Attempt) (req : List String) (i : ℕ)
    (h : parseAccept (env i) req = none) : retryLoop env req i 1 = (none, 0, 1) := by
  unfold retryLoop
  rw [h]

lemma retryLoop_two_acc (env : ℕ → Attempt) (req l : List String) (i n : ℕ)
    (h : parseAccept (env i) req = some l) : retryLoop env req i (n + 2) = (some l, 0, 1) := by
  unfold retryLoop
  rw [h]

lemma retryLoop_two_fail (env : ℕ → Attempt) (req : List String) (i n : ℕ)
    (h : parseAccept (env i) req = none) :
    retryLoop env req i (n + 2) =
      ((retryLoop env req (i + 1) (n + 1)).1,
        2 ^ i + (retryLoop env req (i + 1) (n + 1)).2.1,
        1 + (retryLoop env req (i + 1) (n + 1)).2.2) := by
  conv_lhs => unfold retryLoop
  rw [h]

lemma retryLoop_good (env : ℕ → Attempt) (tr : String → String) (req : List String)
    (h : GoodEnvB env tr) : ∀ (n i : ℕ),
    (retryLoop env req i n).1 = some (req.map tr) ∨ (retryLoop env req i n).1 = none := by
  intro n
  induction n with
  | zero => exact fun i => Or.inr rfl
  | succ n ih =>
    intro i
    rcases h i with he | hg
    · have hacc : parseAccept (env i) req = none := by rw [he]; rfl
      cases n with
      | zero => rw [retryLoop_one_fail env req i hacc]; exact Or.inr rfl
      | succ m =>
        rw [retryLoop_two_fail env req i m hacc]
        exact ih (i + 1)
    · have hacc : parseAccept (env i) req = some (req.map tr) := by
        rw [hg]; exact parseAccept_good tr req
      cases n with
      | zero => rw [retryLoop_one_acc env req _ i hacc]; exact Or.inl rfl
      | succ m => rw [retryLoop_two_acc env req _ i m hacc]; exact Or.inl rfl

lemma retryLoop_some_exists (env : ℕ → Attempt) (req : List String) : ∀ (n i : ℕ)
    (l : List String), (retryLoop env req i n).1 = some l →
    ∃ j, i ≤ j ∧ j < i + n ∧ parseAccept (env j) req = some l := by
  intro n
  induction n with
  | zero => intro i l h; simp [retryLoop_zero] at h
  | succ n ih =>
    intro i l h
    cases hacc : parseAccept (env i) req with
    | some l' =>
      cases n with
      | zero =>
        rw [retryLoop_one_acc env req l' i hacc] at h
        exact ⟨i, le_rfl, by omega, by rw [hacc, Option.some_inj.mp h]⟩
      | succ m =>
        rw [retryLoop_two_acc env req l' i m hacc] at h
        exact ⟨i, le_rfl, by omega, by rw [hacc, Option.some_inj.mp h]⟩
    | none =>
      cases n with
      | zero =>
        rw [retryLoop_one_fail env req i hacc] at h
        simp at h
      | succ m =>
        rw [retryLoop_two_fail env req i m hacc] at h
        rcases ih (i + 1) l h with ⟨j, hj1, hj2, hj3⟩
        exact ⟨j, by omega, by omega, hj3⟩

lemma retryLoop_allfail (env : ℕ → Attempt) (req : List String) : ∀ (n i : ℕ),
    (∀ j, i ≤ j → j < i + n → parseAccept (env j) req = none) →
    (retryLoop env req i n).1 = none := by
  intro n
  induction n with
  | zero => intro i _; rfl
  | succ n ih =>
    intro i h
    have hacc : parseAccept (env i) req = none := h i le_rfl (by omega)
    cases n with
    | zero => rw [retryLoop_one_fail env req i hacc]
    | succ m =>
      rw [retryLoop_two_fail env req i m hacc]
      exact ih (i + 1) (fun j hj1 hj2 => h j (by omega) (by omega))

lemma retryLoop_exact (env : ℕ → Attempt) (req l : List String) : ∀ (K i n : ℕ), K < n →
    (∀ j, j < K → parseAccept (env (i + j)) req = none) →
    parseAccept (env (i + K)) req = some l →
    retryLoop env req i n =
      (some l, Finset.sum (Finset.range K) (fun j => 2 ^ (i + j)), K + 1) := by
  intro K
  induction K with
  | zero =>
    intro i n hn _ hacc
    simp only [Nat.add_zero] at hacc
    simp only [Finset.range_zero, Finset.sum_empty]
    match n, hn with
    | 1, _ => exact retryLoop_one_acc env req l i hacc
    | m + 2, _ => exact retryLoop_two_acc env req l i m hacc
  | succ K ih =>
    intro i n hn hfail hacc
    have hacc0 : parseAccept (env i) req = none := by
      have := hfail 0 (by omega)
      simpa using this
    obtain ⟨m, rfl⟩ : ∃ m, n = m + 2 := ⟨n - 2, by omega⟩
    rw [retryLoop_two_fail env req i m hacc0]
    have hrec := ih (i + 1) (m + 1) (by omega)
      (fun j hj => by
        have := hfail (j + 1) (by omega)
        rwa [show i + (j + 1) = i + 1 + j by omega] at this)
      (by rwa [show i + 1 + K = i + (K + 1) by omega])
    rw [hrec]
    refine Prod.ext rfl (Prod.ext ?_ ?_)
    · show 2 ^ i + Finset.sum (Finset.range K) (fun j => 2 ^ (i + 1 + j)) =
        Finset.sum (Finset.range (K + 1)) (fun j => 2 ^ (i + j))
      rw [Finset.sum_range_succ' (fun j => 2 ^ (i + j)) K]
      have : (fun j => 2 ^ (i + 1 + j)) = (fun j => 2 ^ (i + (j + 1))) := by
        funext j
        rw [show i + 1 + j = i + (j + 1) by omega]
      rw [this, Nat.add_zero, Nat.add_comm]
    · show 1 + (K + 1) = K + 1 + 1
      omega

lemma retryLoop_subst_err (env : ℕ → Attempt) (req : List String) (j : ℕ)
    (h : parseAccept (env j) req = none) : ∀ (n i : ℕ),
    retryLoop (fun x => if x = j then Attempt.err else env x) req i n = retryLoop env req i n := by
  intro n
  induction n with
  | zero => intro i; rfl
  | succ n ih =>
    intro i
    have hsame : parseAccept ((fun x => if x = j then Attempt.err else env x) i) req =
        parseAccept (env i) req := by
      by_cases hij : i = j
      · simp only [hij, if_pos rfl]
        rw [h]
        rfl
      · simp only [if_neg hij]
    cases hacc : parseAccept (env i) req with
    | some l =>
      cases n with
      | zero =>
        rw [retryLoop_one_acc env req l i hacc,
          retryLoop_one_acc _ req l i (by rw [hsame, hacc])]
      | succ m =>
        rw [retryLoop_two_acc env req l i m hacc,
          retryLoop_two_acc _ req l i m (by rw [hsame, hacc])]
    | none =>
      cases n with
      | zero =>
        rw [retryLoop_one_fail env req i hacc,
          retryLoop_one_fail _ req i (by rw [hsame, hacc])]
      | succ m =>
        rw [retryLoop_two_fail env req i m hacc,
          retryLoop_two_fail _ req i m (by rw [hsame, hacc]), ih (i + 1)]

/-! ### Characterization of one `translate_batch_async` call -/

lemma merged_split (texts : List String) : ∀ (ps : List (ℕ × String))
    (sl : List (Option String)) (c : Cache),
    ps.foldl (fun st p => (st.1.set p.1 (some p.2), cacheSet st.2 (texts.getD p.1 "") p.2)) (sl, c)
      = (ps.foldl (fun s p => s.set p.1 (some p.2)) sl,
         ps.foldl (fun cc p => cacheSet cc (texts.getD p.1 "") p.2) c) := by
  intro ps
  induction ps with
  | nil => intro sl c; rfl
  | cons p rest ih => intro sl c; simpa using ih _ _

lemma foldl_setp_length : ∀ (ps : List (ℕ × String)) (sl : List (Option String)),
    (ps.foldl (fun s p => s.set p.1 (some p.2)) sl).length = sl.length := by
  intro ps
  induction ps with
  | nil => intro sl; rfl
  | cons p rest ih =>
    intro sl
    rw [List.foldl_cons, ih (sl.set p.1 (some p.2)), List.length_set]

lemma zip_self_map (g : ℕ → String) : ∀ (idxs : List ℕ),
    idxs.zip (idxs.map g) = idxs.map (fun i => (i, g i)) := by
  intro idxs
  induction idxs with
  | nil => rfl
  | cons i rest ih => simp [List.zip_cons_cons, ih]

lemma isEmpty_false_of_ne_nil (l : List α) (h : l ≠ []) : l.isEmpty = false := by
  cases hb : l.isEmpty
  · rfl
  · exact absurd (List.isEmpty_iff.mp hb) h

lemma fold_set_map_getD (c : Cache) (texts : List String) (g : ℕ → String) (φ : String → String)
    (hg : ∀ i, i < texts.length → cacheHit c (texts.getD i "") = false → g i = φ (texts.getD i "")) :
    ((text_indices c texts).foldl (fun s i => s.set i (some (g i))) (cachedSlots c texts)).map
        (fun o => o.getD "")
      = texts.map (fun t => if cacheHit c t then (cacheGet c t).getD "" else φ t) := by
  have hslen : (cachedSlots c texts).length = texts.length := cachedSlots_length c texts
  have hflen : ((text_indices c texts).foldl (fun s i => s.set i (some (g i)))
      (cachedSlots c texts)).length = texts.length := by
    rw [foldl_set_length, hslen]
  apply eq_of_getD_eq ""
  · simp [hflen]
  · intro i hi
    have hi' : i < texts.length := by simpa [hflen] using hi
    rw [getD_map_of_lt _ _ i "" none (by rw [hflen]; exact hi'),
      getD_map_of_lt _ _ i "" "" hi']
    by_cases hhit : cacheHit c (texts.getD i "") = true
    · have hnot : i ∉ text_indices c texts := by
        intro hcontra
        rw [mem_text_indices] at hcontra
        rw [hcontra.2] at hhit
        exact Bool.false_ne_true hhit
      rw [foldl_set_getD_not_mem g _ _ i hnot, cachedSlots_getD c texts i hi',
        if_pos hhit, if_pos hhit, Option.getD_some]
    · have hhit' : cacheHit c (texts.getD i "") = false := by
        simpa using hhit
      have hmem : i ∈ text_indices c texts := (mem_text_indices c texts i).mpr ⟨hi', hhit'⟩
      rw [foldl_set_getD_mem g _ _ i hmem (by rw [hslen]; exact hi'), Option.getD_some,
        if_neg hhit]
      exact hg i hi' hhit'

lemma translate_batch_allhit (env : ℕ → Attempt) (c : Cache) (texts : List String)
    (h : ∀ t ∈ texts, cacheHit c t = true) :
    translate_batch_async env c texts =
      ⟨texts.map (fun t => (cacheGet c t).getD ""), c, 0, 0, false, false⟩ := by
  have hnil : texts_to_translate c texts = [] := (texts_to_translate_nil_iff c texts).mpr h
  unfold translate_batch_async
  rw [hnil]
  simp only [List.isEmpty_nil, if_true]
  congr 1
  unfold cachedSlots
  rw [List.map_map]
  apply List.map_congr_left
  intro t ht
  simp [Function.comp, h t ht]

lemma translate_batch_success (env : ℕ → Attempt) (c : Cache) (texts : List String)
    (tr : String → String) (hne : texts_to_translate c texts ≠ [])
    (hr : (retryLoop env (texts_to_translate c texts) 0 max_retries).1 =
      some ((texts_to_translate c texts).map tr)) :
    (translate_batch_async env c texts).out =
        texts.map (fun t => if cacheHit c t then (cacheGet c t).getD "" else tr t)
      ∧ (translate_batch_async env c texts).cache =
        (text_indices c texts).foldl
          (fun cc i => cacheSet cc (texts.getD i "") (tr (texts.getD i ""))) c
      ∧ (translate_batch_async env c texts).sleep =
        (retryLoop env (texts_to_translate c texts) 0 max_retries).2.1
      ∧ (translate_batch_async env c texts).calls =
        (retryLoop env (texts_to_translate c texts) 0 max_retries).2.2 := by
  have hempty := isEmpty_false_of_ne_nil _ hne
  have hl : (texts_to_translate c texts).map tr =
      (text_indices c texts).map (fun i => tr (texts.getD i "")) := by
    rw [← text_indices_map_getD, List.map_map]
    rfl
  have hzip : (text_indices c texts).zip ((texts_to_translate c texts).map tr) =
      (text_indices c texts).map (fun i => (i, tr (texts.getD i ""))) := by
    rw [hl, zip_self_map]
  unfold translate_batch_async
  simp only [hempty, Bool.false_eq_true, if_false, hr]
  rw [merged_split, hzip, List.foldl_map, List.foldl_map]
  refine ⟨?_, ?_, ?_, ?_⟩
  · exact fold_set_map_getD c texts (fun i => tr (texts.getD i "")) tr (fun i _ _ => rfl)
  · rfl
  · trivial
  · trivial

lemma translate_batch_degrade (env : ℕ → Attempt) (c : Cache) (texts : List String)
    (hne : texts_to_translate c texts ≠ [])
    (hr : (retryLoop env (texts_to_translate c texts) 0 max_retries).1 = none) :
    (translate_batch_async env c texts).out =
        texts.map (fun t => if cacheHit c t then (cacheGet c t).getD "" else t)
      ∧ (translate_batch_async env c texts).cache = c
      ∧ (translate_batch_async env c texts).sleep =
        (retryLoop env (texts_to_translate c texts) 0 max_retries).2.1
      ∧ (translate_batch_async env c texts).calls =
        (retryLoop env (texts_to_translate c texts) 0 max_retries).2.2 := by
  have hempty := isEmpty_false_of_ne_nil _ hne
  unfold translate_batch_async
  simp only [hempty, Bool.false_eq_true, if_false, hr]
  refine ⟨?_, ?_, ?_, ?_⟩
  · exact fold_set_map_getD c texts (fun i => texts.getD i "") (fun t => t) (fun i _ _ => rfl)
  · trivial
  · trivial
  · trivial

lemma translate_batch_out_length (env : ℕ → Attempt) (c : Cache) (texts : List String) :
    (translate_batch_async env c texts).out.length = texts.length := by
  unfold translate_batch_async
  by_cases hempty : (texts_to_translate c texts).isEmpty = true
  · simp only [hempty, if_true]
    simp [cachedSlots_length]
  · have hf : (texts_to_translate c texts).isEmpty = false := by simpa using hempty
    simp only [hf, Bool.false_eq_true, if_false]
    cases hr : (retryLoop env (texts_to_translate c texts) 0 max_retries).1 with
    | some l =>
      simp only [hr]
      rw [merged_split]
      simp only [List.length_map]
      rw [foldl_setp_length, cachedSlots_length]
    | none =>
      simp only [hr]
      simp only [List.length_map]
      rw [foldl_set_length, cachedSlots_length]

/-! ### Pointwise column relation and orchestration -/

lemma getD_mem_of_lt (l : List α) (i : ℕ) (d : α) (h : i < l.length) : l.getD i d ∈ l := by
  rw [List.getD_eq_getElem _ _ h]
  exact List.getElem_mem h

lemma getD_replicate_self (a : α) : ∀ (n k : ℕ), (List.replicate n a).getD k a = a := by
  intro n
  induction n with
  | zero => intro k; rfl
  | succ n ih =>
    intro k
    cases k with
    | zero => rfl
    | succ k => exact ih k

lemma translate_batch_ptwise (env : ℕ → Attempt) (c : Cache) (texts : List String)
    (tr : String → String) (hc : Coherent tr c) (hg : GoodEnvB env tr) :
    PtwiseTr tr (translate_batch_async env c texts).out texts ∧
      Coherent tr (translate_batch_async env c texts).cache := by
  by_cases hnil : texts_to_translate c texts = []
  · have hall : ∀ t ∈ texts, cacheHit c t = true := (texts_to_translate_nil_iff c texts).mp hnil
    rw [translate_batch_allhit env c texts hall]
    refine ⟨⟨by simp, ?_⟩, hc⟩
    intro i hi
    left
    rw [getD_map_of_lt _ _ i "" "" hi]
    exact coherent_hit_val tr c _ hc (hall _ (getD_mem_of_lt texts i "" hi))
  · rcases retryLoop_good env tr (texts_to_translate c texts) hg max_retries 0 with hr | hr
    · obtain ⟨ho, hcache, -, -⟩ := translate_batch_success env c texts tr hnil hr
      constructor
      · rw [ho]
        refine ⟨by simp, ?_⟩
        intro i hi
        rw [getD_map_of_lt _ _ i "" "" hi]
        by_cases hhit : cacheHit c (texts.getD i "") = true
        · left
          rw [if_pos hhit]
          exact coherent_hit_val tr c _ hc hhit
        · left
          rw [if_neg hhit]
      · rw [hcache]
        exact coherent_foldl_cacheSet tr (fun i => texts.getD i "")
          (fun i => tr (texts.getD i "")) _ c (fun i _ => rfl) hc
    · obtain ⟨ho, hcache, -, -⟩ := translate_batch_degrade env c texts hnil hr
      constructor
      · rw [ho]
        refine ⟨by simp, ?_⟩
        intro i hi
        rw [getD_map_of_lt _ _ i "" "" hi]
        by_cases hhit : cacheHit c (texts.getD i "") = true
        · left
          rw [if_pos hhit]
          exact coherent_hit_val tr c _ hc hhit
        · right
          rw [if_neg hhit]
      · rw [hcache]
        exact hc

lemma ptwise_append (tr : String → String) (o₁ s₁ o₂ s₂ : List String)
    (h₁ : PtwiseTr tr o₁ s₁) (h₂ : PtwiseTr tr o₂ s₂) :
    PtwiseTr tr (o₁ ++ o₂) (s₁ ++ s₂) := by
  obtain ⟨hl₁, hp₁⟩ := h₁
  obtain ⟨hl₂, hp₂⟩ := h₂
  constructor
  · simp [hl₁, hl₂]
  · intro i hi
    rw [List.length_append] at hi
    by_cases hlt : i < s₁.length
    · rw [getD_append_left o₁ o₂ i "" (by omega), getD_append_left s₁ s₂ i "" hlt]
      exact hp₁ i hlt
    · obtain ⟨j, rfl⟩ : ∃ j, i = s₁.length + j := ⟨i - s₁.length, by omega⟩
      have e1 : (o₁ ++ o₂).getD (s₁.length + j) "" = o₂.getD j "" := by
        rw [show s₁.length + j = o₁.length + j by rw [hl₁]]
        exact getD_append_right o₁ o₂ j ""
      rw [e1, getD_append_right s₁ s₂ j ""]
      exact hp₂ j (by omega)

lemma ptwise_flatten (tr : String → String) : ∀ (slots : List (Option (List String)))
    (batches : List (List String)), slots.length = batches.length →
    (∀ k, k < batches.length →
      ∃ out, slots.getD k none = some out ∧ PtwiseTr tr out (batches.getD k [])) →
    PtwiseTr tr ((slots.map (fun o => o.getD [])).flatten) batches.flatten := by
  intro slots
  induction slots with
  | nil =>
    intro batches hlen _
    have : batches = [] := by
      cases batches with
      | nil => rfl
      | cons bt bts => simp at hlen
    subst this
    exact ⟨rfl, fun i hi => by simp at hi⟩
  | cons o rest ih =>
    intro batches hlen hk
    cases batches with
    | nil => simp at hlen
    | cons bt bts =>
      obtain ⟨out0, ho, hpt⟩ := hk 0 (by simp)
      have ho' : o = some out0 := by simpa using ho
      have hbt : PtwiseTr tr out0 bt := by simpa using hpt
      simp only [List.map_cons, List.flatten_cons, ho', Option.getD_some]
      refine ptwise_append tr _ _ _ _ hbt ?_
      refine ih bts (by simpa using hlen) ?_
      intro k hkk
      obtain ⟨out, h1, h2⟩ := hk (k + 1) (by simpa using Nat.succ_lt_succ hkk)
      exact ⟨out, by simpa using h1, by simpa using h2⟩

lemma runOrder_inv (tr : String → String) (env : ℕ → ℕ → Attempt)
    (batches : List (List String)) (hg : GoodEnv env tr) : ∀ (ord : List ℕ)
    (slots : List (Option (List String))) (c : Cache), Coherent tr c →
    slots.length = batches.length →
    (∀ k out, slots.getD k none = some out → PtwiseTr tr out (batches.getD k [])) →
    Coherent tr (runOrder env batches ord slots c).2 ∧
    (runOrder env batches ord slots c).1.length = batches.length ∧
    (∀ k out, (runOrder env batches ord slots c).1.getD k none = some out →
      PtwiseTr tr out (batches.getD k [])) ∧
    (∀ k, k ∈ ord → k < batches.length → (runOrder env batches ord slots c).1.getD k none ≠ none) ∧
    (∀ k, slots.getD k none ≠ none → (runOrder env batches ord slots c).1.getD k none ≠ none) := by
  intro ord
  induction ord with
  | nil =>
    intro slots c hc hlen hinv
    exact ⟨hc, hlen, hinv, by simp, fun k h => h⟩
  | cons k ks ih =>
    intro slots c hc hlen hinv
    have hb := translate_batch_ptwise (env k) c (batches.getD k []) tr hc (hg k)
    have hnewinv : ∀ k' out,
        (slots.set k (some (translate_batch_async (env k) c (batches.getD k [])).out)).getD k' none
          = some out → PtwiseTr tr out (batches.getD k' []) := by
      intro k' out hko
      by_cases hk' : k = k'
      · subst hk'
        by_cases hklen : k < slots.length
        · rw [getD_set_self slots k _ none hklen] at hko
          rw [← Option.some_inj.mp hko]
          exact hb.1
        · rw [List.set_eq_of_length_le (by omega)] at hko
          exact hinv k out hko
      · rw [getD_set_ne slots k k' _ none hk'] at hko
        exact hinv k' out hko
    have hrec := ih (slots.set k (some (translate_batch_async (env k) c (batches.getD k [])).out))
      (translate_batch_async (env k) c (batches.getD k [])).cache hb.2
      (by rw [List.length_set]; exact hlen) hnewinv
    refine ⟨hrec.1, hrec.2.1, hrec.2.2.1, ?_, ?_⟩
    · intro k' hk' hklt
      rcases List.mem_cons.mp hk' with he | hm
      · refine hrec.2.2.2.2 k' ?_
        rw [he, getD_set_self slots k _ none (by omega)]
        simp
      · exact hrec.2.2.2.1 k' hm hklt
    · intro k' hne
      refine hrec.2.2.2.2 k' ?_
      by_cases hk'' : k = k'
      · rw [← hk''] at hne ⊢
        by_cases hklen : k < slots.length
        · rw [getD_set_self slots k _ none hklen]
          simp
        · rwa [List.set_eq_of_length_le (by omega)]
      · rwa [getD_set_ne slots k k' _ none hk'']

lemma translate_all_batches_char (b : ℕ) (tr : String → String) (env : ℕ → ℕ → Attempt)
    (ord : List ℕ) (texts : List String) (c : Cache) (hc : Coherent tr c) (hg : GoodEnv env tr)
    (hcov : ∀ k, k < (chunkList b texts).length → k ∈ ord) :
    PtwiseTr tr (translate_all_batches b env ord texts c).1 texts ∧
      Coherent tr (translate_all_batches b env ord texts c).2 := by
  have hrep : ∀ k out, ((List.replicate (chunkList b texts).length
      (none : Option (List String)))).getD k none = some out →
      PtwiseTr tr out ((chunkList b texts).getD k []) := by
    intro k out hko
    rw [getD_replicate_self] at hko
    exact absurd hko (by simp)
  have h := runOrder_inv tr env (chunkList b texts) hg ord
    (List.replicate (chunkList b texts).length none) c hc (by simp) hrep
  unfold translate_all_batches
  constructor
  · have hfl := ptwise_flatten tr
      (runOrder env (chunkList b texts) ord (List.replicate (chunkList b texts).length none) c).1
      (chunkList b texts) h.2.1 ?_
    · rw [chunkList_flatten] at hfl
      exact hfl
    · intro k hk
      have hne := h.2.2.2.1 k (hcov k hk) hk
      rcases Option.ne_none_iff_exists'.mp hne with ⟨out, hout⟩
      exact ⟨out, hout, h.2.2.1 k out hout⟩
  · exact h.1

/-! ### Merge and resume support lemmas -/

lemma getD_range (n j : ℕ) (d : ℕ) (h : j < n) : (List.range n).getD j d = j := by
  rw [List.getD_eq_getElem _ _ (by simpa using h)]
  exact List.getElem_range j _

lemma mergeAll_length (qas : List QA) (tq ta tc : List String) :
    (mergeAll qas tq ta tc).length = qas.length := by
  simp [mergeAll]

lemma mergeAll_getD (qas : List QA) (tq ta tc : List String) (j : ℕ) (h : j < qas.length) :
    (mergeAll qas tq ta tc).getD j default =
      { qas.getD j default with
        question_en := some (tq.getD j "")
        answer_en := some (ta.getD j "")
        context_en := some (if (qas.getD j default).context.getD "" ≠ "" then tc.getD j ""
          else "") } := by
  unfold mergeAll
  rw [getD_map_of_lt _ _ j default 0 (by simpa using h), getD_range _ j 0 h]

lemma flaggedAux_fst : ∀ (i : ℕ) (qas : List QA),
    (flaggedAux i qas).1 = qas.filter (fun qa => needs_translation qa) := by
  intro i qas
  induction qas generalizing i with
  | nil => rfl
  | cons qa rest ih =>
    unfold flaggedAux
    rw [List.filter_cons]
    by_cases hn : needs_translation qa
    · simp [hn, ih (i + 1)]
    · simp [hn, ih (i + 1)]

lemma flaggedAux_idx_mem : ∀ (qas : List QA) (i j : ℕ), j ∈ (flaggedAux i qas).2 →
    ∃ k, k < qas.length ∧ j = i + k ∧ needs_translation (qas.getD k default) = true := by
  intro qas
  induction qas with
  | nil => intro i j hj; simp [flaggedAux] at hj
  | cons qa rest ih =>
    intro i j hj
    unfold flaggedAux at hj
    by_cases hn : needs_translation qa
    · simp only [hn, if_true, List.mem_cons] at hj
      rcases hj with he | hm
      · exact ⟨0, by simp, by omega, by simpa using hn⟩
      · rcases ih (i + 1) j hm with ⟨k, hk, hjk, hneed⟩
        exact ⟨k + 1, by simpa using Nat.succ_lt_succ hk, by omega, by simpa using hneed⟩
    · simp only [hn, if_false] at hj
      rcases ih (i + 1) j hj with ⟨k, hk, hjk, hneed⟩
      exact ⟨k + 1, by simpa using Nat.succ_lt_succ hk, by omega, by simpa using hneed⟩

lemma writeBack_length (tq ta tc : List String) (fl : List QA) : ∀ (idxs : List ℕ) (i : ℕ)
    (acc : List QA), (writeBack tq ta tc fl i idxs acc).length = acc.length := by
  intro idxs
  induction idxs with
  | nil => intro i acc; rfl
  | cons idx rest ih =>
    intro i acc
    unfold writeBack
    rw [ih (i + 1) _, List.length_set]

lemma writeBack_getD_not_mem (tq ta tc : List String) (fl : List QA) : ∀ (idxs : List ℕ)
    (i : ℕ) (acc : List QA) (j : ℕ), j ∉ idxs →
    (writeBack tq ta tc fl i idxs acc).getD j default = acc.getD j default := by
  intro idxs
  induction idxs with
  | nil => intro i acc j _; rfl
  | cons idx rest ih =>
    intro i acc j hj
    have hne : idx ≠ j := fun e => hj (by simp [e])
    have hrest : j ∉ rest := fun e => hj (List.mem_cons_of_mem _ e)
    unfold writeBack
    rw [ih (i + 1) _ j hrest, getD_set_ne _ idx j _ default hne]


lemma getD_set_cases (l : List α) (i j : ℕ) (a d : α) :
    (l.set i a).getD j d = if i = j ∧ j < l.length then a else l.getD j d := by
  by_cases h : i = j ∧ j < l.length
  · rw [if_pos h, h.1, getD_set_self l j a d h.2]
  · rw [if_neg h]
    by_cases he : i = j
    · have hlen : l.length ≤ i := by
        subst he
        by_contra hcon
        exact h ⟨rfl, by omega⟩
      rw [List.set_eq_of_length_le hlen]
    · exact getD_set_ne l i j a d he

lemma writeBack_src_fields (tq ta tc : List String) (fl : List QA) : ∀ (idxs : List ℕ)
    (i : ℕ) (acc : List QA) (j : ℕ),
    ((writeBack tq ta tc fl i idxs acc).getD j default).question_pt
        = (acc.getD j default).question_pt ∧
      ((writeBack tq ta tc fl i idxs acc).getD j default).answer_pt
        = (acc.getD j default).answer_pt ∧
      ((writeBack tq ta tc fl i idxs acc).getD j default).context
        = (acc.getD j default).context ∧
      ((writeBack tq ta tc fl i idxs acc).getD j default).rest
        = (acc.getD j default).rest := by
  intro idxs
  induction idxs with
  | nil => intro i acc j; exact ⟨rfl, rfl, rfl, rfl⟩
  | cons idx rest ih =>
    intro i acc j
    unfold writeBack
    obtain ⟨h1, h2, h3, h4⟩ := ih (i + 1)
      (acc.set idx (enUpdate tq ta tc fl i (acc.getD idx default))) j
    rw [h1, h2, h3, h4, getD_set_cases]
    by_cases h : idx = j ∧ j < acc.length
    · rw [if_pos h, ← h.1]
      exact ⟨rfl, rfl, rfl, rfl⟩
    · rw [if_neg h]
      exact ⟨rfl, rfl, rfl, rfl⟩

/-! ### Rate limiter lemmas -/

lemma refill_le_cap (cap tok e : ℚ) : refill cap tok e ≤ cap :=
  min_le_left _ _

lemma refill_nonneg (cap tok e : ℚ) (hc : 0 ≤ cap) (ht : 0 ≤ tok) (he : 0 ≤ e) :
    0 ≤ refill cap tok e := by
  unfold refill
  refine le_min hc ?_
  have : 0 ≤ e * (cap / 60) := mul_nonneg he (by positivity)
  linarith

lemma acquire_inv (cap : ℚ) : ∀ (es : List ℚ) (tok t' : ℚ), 0 ≤ cap → 0 ≤ tok →
    (∀ e ∈ es, 0 ≤ e) → acquire cap es tok = some t' → 0 ≤ t' ∧ t' ≤ cap := by
  intro es
  induction es with
  | nil => intro tok t' _ _ _ h; simp [acquire] at h
  | cons e es ih =>
    intro tok t' hc ht he h
    simp only [acquire] at h
    by_cases h1 : 1 ≤ refill cap tok e
    · rw [if_pos h1] at h
      have ht' : t' = refill cap tok e - 1 := (Option.some_inj.mp h).symm
      have hle := refill_le_cap cap tok e
      constructor
      · rw [ht']; linarith
      · rw [ht']; linarith
    · rw [if_neg h1] at h
      exact ih (refill cap tok e) t' hc
        (refill_nonneg cap tok e hc ht (he e (List.mem_cons_self _ _)))
        (fun e' he' => he e' (List.mem_cons_of_mem _ he')) h

lemma acquireSeq_inv (cap : ℚ) : ∀ (ess : List (List ℚ)) (tok t' : ℚ), 0 ≤ cap → 0 ≤ tok →
    tok ≤ cap → (∀ es ∈ ess, ∀ e ∈ es, 0 ≤ e) → acquireSeq cap ess tok = some t' →
    0 ≤ t' ∧ t' ≤ cap := by
  intro ess
  induction ess with
  | nil =>
    intro tok t' _ ht htc _ h
    have : tok = t' := by simpa [acquireSeq] using h
    rw [← this]
    exact ⟨ht, htc⟩
  | cons es rest ih =>
    intro tok t' hc ht htc hes h
    simp only [acquireSeq] at h
    cases ha : acquire cap es tok with
    | none => rw [ha] at h; simp at h
    | some t'' =>
      rw [ha] at h
      have hmid := acquire_inv cap es tok t'' hc ht
        (fun e he => hes es (List.mem_cons_self _ _) e he) ha
      exact ih t'' t' hc hmid.1 hmid.2 (fun es' hes' => hes es' (List.mem_cons_of_mem _ hes')) h

/-! ### Claim theorems -/

/-- C2: Fallback degradation - when every one of the `max_retries` attempts
of a batch fails, `translate_batch_async` still returns a full-length list
(no exception reaches the caller - the model is total and yields a
`BatchRun`), the cache is untouched, and every slot holds the cached
translation for truthy-cached texts and the item's own source text for
every un-cached item. -/
theorem translate_batch_fallback_degrade (env : ℕ → Attempt) (c : Cache) (texts : List String)
    (hfail : ∀ i, i < max_retries → parseAccept (env i) (texts_to_translate c texts) = none) :
    (translate_batch_async env c texts).out.length = texts.length ∧
    (translate_batch_async env c texts).cache = c ∧
    (translate_batch_async env c texts).out =
      texts.map (fun t => if cacheHit c t then (cacheGet c t).getD "" else t) := by
  by_cases hnil : texts_to_translate c texts = []
  · have hall := (texts_to_translate_nil_iff c texts).mp hnil
    rw [translate_batch_allhit env c texts hall]
    refine ⟨by simp, rfl, ?_⟩
    apply List.map_congr_left
    intro t ht
    rw [if_pos (hall t ht)]
  · have hr : (retryLoop env (texts_to_translate c texts) 0 max_retries).1 = none :=
      retryLoop_allfail env _ max_retries 0 (fun j hj1 hj2 => hfail j (by omega))
    obtain ⟨ho, hcache, -, -⟩ := translate_batch_degrade env c texts hnil hr
    exact ⟨translate_batch_out_length env c texts, hcache, ho⟩

/-- C2 witness. -/
theorem translate_batch_fallback_degrade_witness :
    (translate_batch_async envFailB [] ["oi", "tchau"]).out.length = 2 :=
  (translate_batch_fallback_degrade envFailB [] ["oi", "tchau"] (fun _ _ => rfl)).1

/-- C3: Backoff and recovery - a batch whose attempts `0, ..., K-1` fail and
whose attempt `K` succeeds (`K < max_retries`) sleeps exactly
`Σ_{i<K} 2 ^ i` seconds of backoff, makes `K + 1` calls, and returns the
translations of the successful response merged over the cached slots. -/
theorem translate_batch_backoff_recovery (env : ℕ → Attempt) (c : Cache) (texts : List String)
    (tr : String → String) (K : ℕ) (hK : K < max_retries)
    (hne : texts_to_translate c texts ≠ [])
    (hfail : ∀ j, j < K → parseAccept (env j) (texts_to_translate c texts) = none)
    (hacc : env K = Attempt.resp (fun req => JVal.arr (req.map tr))) :
    (translate_batch_async env c texts).sleep = Finset.sum (Finset.range K) (fun i => 2 ^ i) ∧
    (translate_batch_async env c texts).calls = K + 1 ∧
    (translate_batch_async env c texts).out =
      texts.map (fun t => if cacheHit c t then (cacheGet c t).getD "" else tr t) := by
  have haccp : parseAccept (env K) (texts_to_translate c texts) =
      some ((texts_to_translate c texts).map tr) := by
    rw [hacc]
    exact parseAccept_good tr _
  have hexact := retryLoop_exact env (texts_to_translate c texts)
    ((texts_to_translate c texts).map tr) K 0 max_retries hK
    (fun j hj => by simpa using hfail j hj) (by simpa using haccp)
  have hr : (retryLoop env (texts_to_translate c texts) 0 max_retries).1 =
      some ((texts_to_translate c texts).map tr) := by rw [hexact]
  obtain ⟨ho, -, hsl, hcalls⟩ := translate_batch_success env c texts tr hne hr
  refine ⟨?_, ?_, ho⟩
  · rw [hsl, hexact]
    show Finset.sum (Finset.range K) (fun j => 2 ^ (0 + j)) =
      Finset.sum (Finset.range K) (fun i => 2 ^ i)
    exact Finset.sum_congr rfl (fun j _ => by rw [Nat.zero_add])
  · rw [hcalls, hexact]

/-- C3 witness (fails once, then succeeds: backoff 2^0 = 1 second). -/
theorem translate_batch_backoff_recovery_witness :
    (translate_batch_async envK1 [] ["oi"]).sleep =
      Finset.sum (Finset.range 1) (fun i => 2 ^ i) :=
  (translate_batch_backoff_recovery envK1 [] ["oi"] trWit 1 (by norm_num [max_retries])
    (by decide)
    (fun j hj => by
      have hj0 : j = 0 := Nat.lt_one_iff.mp hj
      rw [hj0]
      rfl)
    rfl).1

/-- C4: Response length validation - an attempt is accepted exactly when it
is a response whose parsed content is a JSON list of the same length as the
request; a response parsing to a non-list or to a list of any other length
behaves in the retry loop exactly like a raised error (a retry-worthy
failure); and the cache is modified only when some attempt within
`max_retries` was accepted with a list of the request's length. -/
theorem response_length_validation :
    (∀ (a : Attempt) (req l : List String), parseAccept a req = some l ↔
      ∃ f, a = Attempt.resp f ∧ f req = JVal.arr l ∧ l.length = req.length) ∧
    (∀ (env : ℕ → Attempt) (req : List String) (j i n : ℕ),
      parseAccept (env j) req = none →
      retryLoop (fun x => if x = j then Attempt.err else env x) req i n =
        retryLoop env req i n) ∧
    (∀ (env : ℕ → Attempt) (c : Cache) (texts : List String),
      (translate_batch_async env c texts).cache ≠ c →
      ∃ i l, i < max_retries ∧ parseAccept (env i) (texts_to_translate c texts) = some l ∧
        l.length = (texts_to_translate c texts).length) := by
  refine ⟨parseAccept_some_iff, fun env req j i n h => retryLoop_subst_err env req j h n i, ?_⟩
  intro env c texts hneq
  by_cases hnil : texts_to_translate c texts = []
  · rw [translate_batch_allhit env c texts ((texts_to_translate_nil_iff c texts).mp hnil)] at hneq
    exact absurd rfl hneq
  · cases hr : (retryLoop env (texts_to_translate c texts) 0 max_retries).1 with
    | none =>
      obtain ⟨-, hcache, -, -⟩ := translate_batch_degrade env c texts hnil hr
      exact absurd hcache hneq
    | some l =>
      rcases retryLoop_some_exists env (texts_to_translate c texts) max_retries 0 l hr with
        ⟨j, hj1, hj2, hj3⟩
      obtain ⟨f, -, -, hlen⟩ := (parseAccept_some_iff (env j) _ l).mp hj3
      exact ⟨j, l, by omega, hj3, hlen⟩

/-- C4 witness. -/
theorem response_length_validation_witness :
    parseAccept respOk ["oi"] = some ["EN:oi"] :=
  (response_length_validation.1 respOk ["oi"] ["EN:oi"]).mpr
    ⟨fun req => JVal.arr (req.map trWit), rfl, by decide, by decide⟩

/-- C5: Resume classification - `needs_translation` returns `true` exactly
when a target field is missing or empty, or a target field equals that
field's source, or a target field is shorter than 3 characters. -/
theorem needs_translation_iff (qa : QA) :
    needs_translation qa = true ↔
      (qa.question_en.getD "" = "" ∨ qa.answer_en.getD "" = "" ∨
       qa.question_en.getD "" = qa.question_pt ∨ qa.answer_en.getD "" = qa.answer_pt ∨
       (qa.question_en.getD "").length < 3 ∨ (qa.answer_en.getD "").length < 3) := by
  unfold needs_translation
  dsimp only
  split_ifs with h1 h2 h3
  · exact iff_of_true rfl (by tauto)
  · exact iff_of_true rfl (by tauto)
  · exact iff_of_true rfl (by tauto)
  · refine iff_of_false (by simp) ?_
    push_neg at h1 h2 h3
    push_neg
    exact ⟨h1.1, h1.2, h2.1, h2.2, h3.1, h3.2⟩

/-- C7: Cache idempotence / short-circuit - when every text of the batch
has a truthy cache hit, `translate_batch_async` returns the cached
translations, leaves the cache unchanged, makes zero API calls, never
acquires the rate limiter or the semaphore, and its result does not depend
on the API environment at all (so a re-run returns identical output with
zero network calls). -/
theorem translate_batch_cache_short_circuit (env : ℕ → Attempt) (c : Cache)
    (texts : List String) (hall : ∀ t ∈ texts, cacheHit c t = true) :
    (translate_batch_async env c texts).out = texts.map (fun t => (cacheGet c t).getD "") ∧
    (translate_batch_async env c texts).cache = c ∧
    (translate_batch_async env c texts).calls = 0 ∧
    (translate_batch_async env c texts).limiter = false ∧
    (translate_batch_async env c texts).sem = false ∧
    (∀ env' : ℕ → Attempt, translate_batch_async env' c texts =
      translate_batch_async env c texts) := by
  have h := translate_batch_allhit env c texts hall
  rw [h]
  refine ⟨rfl, rfl, rfl, rfl, rfl, ?_⟩
  intro env'
  rw [translate_batch_allhit env' c texts hall]

/-- C7 witness. -/
theorem translate_batch_cache_short_circuit_witness :
    (translate_batch_async envFailB [("oi", "hi")] ["oi"]).calls = 0 :=
  (translate_batch_cache_short_circuit envFailB [("oi", "hi")] ["oi"]
    (fun t ht => by
      have := List.mem_singleton.mp ht
      rw [this]
      rfl)).2.2.1

/-- C8: Rate limiter token invariant - the refill step clamps the token
count at the capacity (`requests_per_minute`); one `acquire` started from
any state with `0 ≤ tokens` and non-negative elapsed times, when it
returns, leaves `0 ≤ tokens ≤ capacity` (a token is subtracted only after
the refilled count reached 1); and any sequence of `acquire` calls started
from the initial state `tokens = requests_per_minute` keeps
`0 ≤ tokens ≤ capacity`. -/
theorem rate_limiter_token_bounds :
    (∀ cap tok e : ℚ, refill cap tok e ≤ cap) ∧
    (∀ (cap : ℚ) (es : List ℚ) (tok t' : ℚ), 0 ≤ cap → 0 ≤ tok → (∀ e ∈ es, 0 ≤ e) →
      acquire cap es tok = some t' → 0 ≤ t' ∧ t' ≤ cap) ∧
    (∀ (rpm : ℕ) (ess : List (List ℚ)) (t' : ℚ), (∀ es ∈ ess, ∀ e ∈ es, 0 ≤ e) →
      acquireSeq (rpm : ℚ) ess (rpm : ℚ) = some t' → 0 ≤ t' ∧ t' ≤ (rpm : ℚ)) := by
  refine ⟨refill_le_cap, fun cap es tok t' hc ht he h => acquire_inv cap es tok t' hc ht he h, ?_⟩
  intro rpm ess t' hes h
  exact acquireSeq_inv (rpm : ℚ) ess (rpm : ℚ) t' (by positivity) (by positivity) le_rfl hes h

/-- C8 witness (capacity 2, one elapsed second, full bucket). -/
theorem rate_limiter_token_bounds_witness : 0 ≤ (1 : ℚ) ∧ (1 : ℚ) ≤ (2 : ℚ) :=
  rate_limiter_token_bounds.2.1 2 [1] 2 1 (by norm_num) (by norm_num)
    (fun e he => by
      rw [List.mem_singleton.mp he]
      norm_num)
    (by simp [acquire, refill]; norm_num)

/-- C9: Degraded results never poison the cache - when the retry loop
exhausts all attempts without an accepted response, `translate_batch_async`
leaves the cache exactly as it was, writes each un-cached item's own source
text only into the output list, and the set of texts classified as
un-cached on a subsequent run over the returned cache is unchanged (so the
degraded items are re-attempted, not cache-hit). -/
theorem degrade_preserves_cache (env : ℕ → Attempt) (c : Cache) (texts : List String)
    (hr : (retryLoop env (texts_to_translate c texts) 0 max_retries).1 = none) :
    (translate_batch_async env c texts).cache = c ∧
    (∀ i, i < texts.length → cacheHit c (texts.getD i "") = false →
      (translate_batch_async env c texts).out.getD i "" = texts.getD i "") ∧
    texts_to_translate (translate_batch_async env c texts).cache texts =
      texts_to_translate c texts := by
  by_cases hnil : texts_to_translate c texts = []
  · rw [translate_batch_allhit env c texts ((texts_to_translate_nil_iff c texts).mp hnil)]
    refine ⟨rfl, ?_, rfl⟩
    intro i hi hmiss
    have hhit := (texts_to_translate_nil_iff c texts).mp hnil _ (getD_mem_of_lt texts i "" hi)
    rw [hhit] at hmiss
    exact absurd hmiss (by simp)
  · obtain ⟨ho, hcache, -, -⟩ := translate_batch_degrade env c texts hnil hr
    refine ⟨hcache, ?_, by rw [hcache]⟩
    intro i hi hmiss
    rw [ho, getD_map_of_lt _ _ i "" "" hi, if_neg (by rw [hmiss]; exact Bool.false_ne_true)]

/-- C9 witness. -/
theorem degrade_preserves_cache_witness :
    (translate_batch_async envFailB [] ["tchau"]).cache = [] :=
  (degrade_preserves_cache envFailB [] ["tchau"] rfl).1

/-- C10: Empty-string cache entries are treated as misses - a text whose
cache entry stores the empty string fails the truthiness test `if cached:`
even though `TranslationCache.get` returns it, so the text is classified
as un-cached and is part of the request sent to the API. -/
theorem empty_cache_entry_is_miss (c : Cache) (texts : List String) (t : String)
    (hmem : t ∈ texts) (hget : cacheGet c t = some "") :
    cacheHit c t = false ∧ t ∈ texts_to_translate c texts := by
  have hhit : cacheHit c t = false := by
    unfold cacheHit
    rw [hget]
    rfl
  refine ⟨hhit, ?_⟩
  unfold texts_to_translate
  rw [List.mem_filter]
  exact ⟨hmem, by rw [hhit]; rfl⟩

/-- C10 witness. -/
theorem empty_cache_entry_is_miss_witness :
    cacheHit [("oi", "")] "oi" = false ∧ "oi" ∈ texts_to_translate [("oi", "")] ["oi"] :=
  empty_cache_entry_is_miss [("oi", "")] ["oi"] "oi" (by decide) (by decide)

lemma translate_qa_pairs_eq (b : ℕ) (envQ envA envC : ℕ → ℕ → Attempt)
    (ordQ ordA ordC : List ℕ) (qas : List QA) (c : Cache) :
    translate_qa_pairs b envQ envA envC ordQ ordA ordC qas c =
      (mergeAll qas
        (translate_all_batches b envQ ordQ (qas.map QA.question_pt) c).1
        (translate_all_batches b envA ordA (qas.map QA.answer_pt)
          (translate_all_batches b envQ ordQ (qas.map QA.question_pt) c).2).1
        (translate_all_batches b envC ordC (qas.map ctxSrc)
          (translate_all_batches b envA ordA (qas.map QA.answer_pt)
            (translate_all_batches b envQ ordQ (qas.map QA.question_pt) c).2).2).1,
       (translate_all_batches b envC ordC (qas.map ctxSrc)
         (translate_all_batches b envA ordA (qas.map QA.answer_pt)
           (translate_all_batches b envQ ordQ (qas.map QA.question_pt) c).2).2).2) := rfl

/-- C1: Order preservation - for every input list of items, every batch
size, every `tr`-faithful API environment per column and every completion
order of the concurrent batch tasks that lets every batch finish, the
orchestrator returns a list of the same length as the input in which item
`j` keeps all its source fields and receives as `question_en`/`answer_en`
either the translation of its own `question_pt`/`answer_pt` or that
unchanged source text (identity fallback on degrade), and likewise for the
context column (empty-context items get `context_en = ""`). -/
theorem translate_qa_pairs_order_preserved
    (b : ℕ) (tr : String → String) (envQ envA envC : ℕ → ℕ → Attempt)
    (ordQ ordA ordC : List ℕ) (qas : List QA) (c : Cache)
    (hc : Coherent tr c) (hgQ : GoodEnv envQ tr) (hgA : GoodEnv envA tr) (hgC : GoodEnv envC tr)
    (hcovQ : ∀ k, k < (chunkList b (qas.map QA.question_pt)).length → k ∈ ordQ)
    (hcovA : ∀ k, k < (chunkList b (qas.map QA.answer_pt)).length → k ∈ ordA)
    (hcovC : ∀ k, k < (chunkList b (qas.map ctxSrc)).length → k ∈ ordC) :
    (translate_qa_pairs b envQ envA envC ordQ ordA ordC qas c).1.length = qas.length ∧
    ∀ j, j < qas.length →
      ((translate_qa_pairs b envQ envA envC ordQ ordA ordC qas c).1.getD j default).question_pt
          = (qas.getD j default).question_pt ∧
      ((translate_qa_pairs b envQ envA envC ordQ ordA ordC qas c).1.getD j default).answer_pt
          = (qas.getD j default).answer_pt ∧
      ((translate_qa_pairs b envQ envA envC ordQ ordA ordC qas c).1.getD j default).context
          = (qas.getD j default).context ∧
      ((translate_qa_pairs b envQ envA envC ordQ ordA ordC qas c).1.getD j default).rest
          = (qas.getD j default).rest ∧
      (((translate_qa_pairs b envQ envA envC ordQ ordA ordC qas c).1.getD j default).question_en
          = some (tr (qas.getD j default).question_pt) ∨
        ((translate_qa_pairs b envQ envA envC ordQ ordA ordC qas c).1.getD j default).question_en
          = some (qas.getD j default).question_pt) ∧
      (((translate_qa_pairs b envQ envA envC ordQ ordA ordC qas c).1.getD j default).answer_en
          = some (tr (qas.getD j default).answer_pt) ∨
        ((translate_qa_pairs b envQ envA envC ordQ ordA ordC qas c).1.getD j default).answer_en
          = some (qas.getD j default).answer_pt) ∧
      ((qas.getD j default).context.getD "" ≠ "" →
        (((translate_qa_pairs b envQ envA envC ordQ ordA ordC qas c).1.getD j default).context_en
            = some (tr ((qas.getD j default).context.getD "")) ∨
          ((translate_qa_pairs b envQ envA envC ordQ ordA ordC qas c).1.getD j default).context_en
            = some ((qas.getD j default).context.getD ""))) ∧
      ((qas.getD j default).context.getD "" = "" →
        ((translate_qa_pairs b envQ envA envC ordQ ordA ordC qas c).1.getD j default).context_en
          = some "") := by
  have hq := translate_all_batches_char b tr envQ ordQ (qas.map QA.question_pt) c hc hgQ hcovQ
  have ha := translate_all_batches_char b tr envA ordA (qas.map QA.answer_pt) _ hq.2 hgA hcovA
  have hct := translate_all_batches_char b tr envC ordC (qas.map ctxSrc) _ ha.2 hgC hcovC
  rw [translate_qa_pairs_eq]
  refine ⟨mergeAll_length qas _ _ _, ?_⟩
  intro j hj
  rw [mergeAll_getD qas _ _ _ j hj]
  have hjq : j < (qas.map QA.question_pt).length := by simpa using hj
  have hja : j < (qas.map QA.answer_pt).length := by simpa using hj
  have hjc : j < (qas.map ctxSrc).length := by simpa using hj
  have hqj := hq.1.2 j hjq
  have haj := ha.1.2 j hja
  have hcj := hct.1.2 j hjc
  rw [getD_map_of_lt QA.question_pt qas j "" default hj] at hqj
  rw [getD_map_of_lt QA.answer_pt qas j "" default hj] at haj
  rw [getD_map_of_lt ctxSrc qas j "" default hj] at hcj
  refine ⟨rfl, rfl, rfl, rfl, ?_, ?_, ?_, ?_⟩
  · rcases hqj with h | h
    · exact Or.inl (by rw [show ({ qas.getD j default with
        question_en :=
          some ((translate_all_batches b envQ ordQ (qas.map QA.question_pt) c).1.getD j "")
        answer_en := some ((translate_all_batches b envA ordA (qas.map QA.answer_pt)
          (translate_all_batches b envQ ordQ (qas.map QA.question_pt) c).2).1.getD j "")
        context_en := some (if (qas.getD j default).context.getD "" ≠ "" then
          (translate_all_batches b envC ordC (qas.map ctxSrc)
            (translate_all_batches b envA ordA (qas.map QA.answer_pt)
              (translate_all_batches b envQ ordQ (qas.map QA.question_pt) c).2).2).1.getD j ""
          else "") } : QA).question_en = some ((translate_all_batches b envQ ordQ
            (qas.map QA.question_pt) c).1.getD j "") from rfl, h])
    · exact Or.inr (by rw [show ({ qas.getD j default with
        question_en :=
          some ((translate_all_batches b envQ ordQ (qas.map QA.question_pt) c).1.getD j "")
        answer_en := some ((translate_all_batches b envA ordA (qas.map QA.answer_pt)
          (translate_all_batches b envQ ordQ (qas.map QA.question_pt) c).2).1.getD j "")
        context_en := some (if (qas.getD j default).context.getD "" ≠ "" then
          (translate_all_batches b envC ordC (qas.map ctxSrc)
            (translate_all_batches b envA ordA (qas.map QA.answer_pt)
              (translate_all_batches b envQ ordQ (qas.map QA.question_pt) c).2).2).1.getD j ""
          else "") } : QA).question_en = some ((translate_all_batches b envQ ordQ
            (qas.map QA.question_pt) c).1.getD j "") from rfl, h])
  · rcases haj with h | h
    · exact Or.inl (by show some _ = _; rw [h])
    · exact Or.inr (by show some _ = _; rw [h])
  · intro hctx
    have hcs : ctxSrc (qas.getD j default) = (qas.getD j default).context.getD "" := by
      unfold ctxSrc
      rw [if_pos hctx]
    rw [hcs] at hcj
    rcases hcj with h | h
    · exact Or.inl (by show some _ = _; rw [if_pos hctx, h])
    · exact Or.inr (by show some _ = _; rw [if_pos hctx, h])
  · intro hctx
    show some _ = some ""
    rw [if_neg (by rw [hctx]; exact fun hcon => hcon rfl)]

/-- C1 witness. -/
theorem translate_qa_pairs_order_preserved_witness :
    (translate_qa_pairs 2 envOkW envOkW envOkW [0] [0] [0] [qaWit] []).1.length = 1 :=
  (translate_qa_pairs_order_preserved 2 trWit envOkW envOkW envOkW [0] [0] [0] [qaWit] []
    (by simp [Coherent])
    (fun k i => Or.inr rfl) (fun k i => Or.inr rfl) (fun k i => Or.inr rfl)
    (fun k hk => by
      have h1 : (chunkList 2 (List.map QA.question_pt [qaWit])).length = 1 := rfl
      rw [h1] at hk
      have h0 : k = 0 := Nat.lt_one_iff.mp hk
      simp [h0])
    (fun k hk => by
      have h1 : (chunkList 2 (List.map QA.answer_pt [qaWit])).length = 1 := rfl
      rw [h1] at hk
      have h0 : k = 0 := Nat.lt_one_iff.mp hk
      simp [h0])
    (fun k hk => by
      have h1 : (chunkList 2 (List.map ctxSrc [qaWit])).length = 1 := rfl
      rw [h1] at hk
      have h0 : k = 0 := Nat.lt_one_iff.mp hk
      simp [h0])).1

/-- C6: Resume frame property - a resumed run dispatches exactly the items
flagged by `needs_translation` (the flagged list is the `needs_translation`
filter of the input, and the batched question column flattens back to the
flagged items' questions), leaves every non-flagged item completely
unchanged, and never writes any field other than the three `_en` target
fields of the flagged items (all source fields of every item survive). -/
theorem translate_missing_only_frame (b : ℕ) (envQ envA envC : ℕ → ℕ → Attempt)
    (qas : List QA) (c : Cache) :
    (translate_missing_only b envQ envA envC qas c).1.length = qas.length ∧
    (flaggedAux 0 qas).1 = qas.filter (fun qa => needs_translation qa) ∧
    (chunkList b ((flaggedAux 0 qas).1.map QA.question_pt)).flatten
      = (qas.filter (fun qa => needs_translation qa)).map QA.question_pt ∧
    (∀ j, j < qas.length → needs_translation (qas.getD j default) = false →
      (translate_missing_only b envQ envA envC qas c).1.getD j default = qas.getD j default) ∧
    (∀ j, ((translate_missing_only b envQ envA envC qas c).1.getD j default).question_pt
        = (qas.getD j default).question_pt ∧
      ((translate_missing_only b envQ envA envC qas c).1.getD j default).answer_pt
        = (qas.getD j default).answer_pt ∧
      ((translate_missing_only b envQ envA envC qas c).1.getD j default).context
        = (qas.getD j default).context ∧
      ((translate_missing_only b envQ envA envC qas c).1.getD j default).rest
        = (qas.getD j default).rest) := by
  have hchunk : (chunkList b ((flaggedAux 0 qas).1.map QA.question_pt)).flatten
      = (qas.filter (fun qa => needs_translation qa)).map QA.question_pt := by
    rw [chunkList_flatten, flaggedAux_fst]
  by_cases hemp : (flaggedAux 0 qas).1.isEmpty = true
  · have heq : (translate_missing_only b envQ envA envC qas c).1 = qas := by
      unfold translate_missing_only
      rw [if_pos hemp]
    rw [heq]
    exact ⟨rfl, flaggedAux_fst 0 qas, hchunk, fun j _ _ => rfl, fun j => ⟨rfl, rfl, rfl, rfl⟩⟩
  · have hemp' : (flaggedAux 0 qas).1.isEmpty = false := by simpa using hemp
    have heq : (translate_missing_only b envQ envA envC qas c).1 =
        writeBack
          (runBatchesSeq envQ 0 c (chunkList b ((flaggedAux 0 qas).1.map QA.question_pt))).1
          (runBatchesSeq envA 0
            (runBatchesSeq envQ 0 c (chunkList b ((flaggedAux 0 qas).1.map QA.question_pt))).2
            (chunkList b ((flaggedAux 0 qas).1.map QA.answer_pt))).1
          (runBatchesSeq envC 0
            (runBatchesSeq envA 0
              (runBatchesSeq envQ 0 c (chunkList b ((flaggedAux 0 qas).1.map QA.question_pt))).2
              (chunkList b ((flaggedAux 0 qas).1.map QA.answer_pt))).2
            (chunkList b ((flaggedAux 0 qas).1.map
              (fun qa => if qa.context.getD "" ≠ "" then qa.context.getD "" else "N/A")))).1
          (flaggedAux 0 qas).1 0 (flaggedAux 0 qas).2 qas := by
      unfold translate_missing_only
      rw [if_neg (by rw [hemp']; exact Bool.false_ne_true)]
    rw [heq]
    refine ⟨writeBack_length _ _ _ _ _ 0 qas, flaggedAux_fst 0 qas, hchunk, ?_,
      fun j => writeBack_src_fields _ _ _ _ _ 0 qas j⟩
    intro j hj hneed
    have hnot : j ∉ (flaggedAux 0 qas).2 := by
      intro hmem
      rcases flaggedAux_idx_mem qas 0 j hmem with ⟨k, hk, hjk, hneedk⟩
      have hkj : k = j := by omega
      rw [hkj] at hneedk
      rw [hneedk] at hneed
      exact absurd hneed (by decide)
    exact writeBack_getD_not_mem _ _ _ _ _ 0 qas j hnot

/-- C6 witness (one already-translated item passes through unchanged). -/
theorem translate_missing_only_frame_witness :
    (translate_missing_only 2 envOkW envOkW envOkW [qaDone] []).1.getD 0 default = qaDone :=
  (translate_missing_only_frame 2 envOkW envOkW envOkW [qaDone] []).2.2.2.1 0 (by decide)
    (by decide)
